import Mathlib

/-!
Verification development for the `gulp-css-gsub` repository.

The engine under study is the `Replacer` class in `src/unnamed/part_001`
(the media-block-aware build of `src/lib/replacer.js`; the two variants
agree on everything modelled here except where noted, and `part_001` is
the working superset, since the `succ` loop in `src/lib/replacer.js`
never terminates).

The shallow embedding below models, faithfully to the JavaScript source:
  * `Number.prototype.toString(34)` rendering of the counter (`ts34`);
  * the class-name validity regex test of `Replacer.succ`;
  * the collision search `cssText.search(new RegExp('\\b\\.' + cls + '\\b', 'gi'))`
    including JavaScript word-boundary semantics (`searchBdotB`);
  * the `succ` while-loop itself, as a fuel-bounded loop whose fuel is an
    explicit counter value proved acceptable (so the fuel-exhausted branch
    is unreachable, see `succLoop_spec`);
  * the default-configuration regexes: `/\.[0-9a-zA-Z\-_]+/g`
    (`cssScan`) and `new RegExp(classes.join("|"), "g")` (`jsScan`,
    leftmost position, first alternative wins, as in JS);
  * `parseCssRules` (catalog extraction, length-descending stable sort,
    first-occurrence dedup), `replace`/`replaceItem`, `replaceAll`, and
    `generateCss` with its `:not` minting policy and selector/rule dropping.

External collaborators (the `css`, `esprima`, `estraverse`, `escodegen`
parsers/serializers and file I/O) are out of scope per the specification:
the stylesheet AST is taken as a `List CRule` input (understood to be the
parse of the stylesheet text also supplied), and the script is taken as
the list of its string-literal values in traversal order, which is all
`Replacer.replace` reads and writes under the default `replace` hook.
The degenerate case of an empty class catalog (where the source would
build an empty alternation regex matching the empty string everywhere)
is outside the model; general theorems about script substitution carry a
nonempty-catalog hypothesis where it matters.
-/

namespace Gsub

/-! ## Base-34 rendering of the counter (JS `counter.toString(34)`) -/

/-- One base-34 digit character, `0`-`9` then `a`-`x`, as produced by
JavaScript `Number.prototype.toString(34)`. -/
def digit34 (n : Nat) : Char := if n < 10 then Char.ofNat (48 + n) else Char.ofNat (87 + n)

/-- Fueled most-significant-first digit expansion; fuel `n+1` always
suffices for input `n` (see `toDigits34Aux_fuel`). -/
def toDigits34Aux : Nat → Nat → List Char
| 0, _ => []
| fuel+1, n => if n < 34 then [digit34 n] else toDigits34Aux fuel (n / 34) ++ [digit34 (n % 34)]

/-- JavaScript `n.toString(34)` for a natural number `n`. -/
def ts34 (n : Nat) : String := String.mk (toDigits34Aux (n+1) n)

/-! ## The validity and collision tests of `Replacer.succ` -/

/-- A character matched by `[a-z\d_-]` under the `i` flag. -/
def isTailChar (c : Char) : Bool := c.isAlpha || c.isDigit || c == '_' || c == '-'

/-- The test `/^([a-z_]|-[a-z\x7b0\x7d-])[a-z\d_-]*$/i.test s` from
`Replacer.succ` (src/unnamed/part_001 line 77): a valid CSS class name
must not start with a digit nor with a hyphen followed by a digit. -/
def validClassName (s : String) : Bool :=
  match s.data with
  | [] => false
  | '-' :: [] => false
  | '-' :: d :: rest => (d.isAlpha || d == '_' || d == '-') && rest.all isTailChar
  | c :: rest => (c.isAlpha || c == '_') && rest.all isTailChar

/-- JavaScript `\w` (ASCII word character). -/
def isWordChar (c : Char) : Bool := c.isAlphanum || c == '_'

/-- Whether position `i` of `t` holds a word character (out of range
counts as non-word). -/
def wordAt (t : List Char) (i : Nat) : Bool :=
  match t.get? i with
  | some c => isWordChar c
  | none => false

/-- JavaScript `\b` at position `i`: the two sides of the position
disagree on word-character-ness (the left of position 0 is non-word). -/
def boundaryAt (t : List Char) (i : Nat) : Bool :=
  (if i = 0 then false else wordAt t (i-1)) != wordAt t i

/-- Case-insensitive character comparison (ASCII, matching the `i`
flag on the collision search; generated tokens are ASCII). -/
def ciEq (a b : Char) : Bool := a.toLower == b.toLower

/-- Case-insensitive literal-pattern match of `p` against a prefix of
the remaining text. -/
def ciPrefixAt : List Char → List Char → Bool
| [], _ => true
| _ :: _, [] => false
| p :: ps, c :: cs => ciEq c p && ciPrefixAt ps cs

/-- The collision test of `Replacer.succ` (src/unnamed/part_001 lines
82-84): `cssText.search(new RegExp('\\b\\.' + cls + '\\b', 'gi')) > -1`.
Note the leading `\b` sits immediately before the literal dot, so it
only holds where a word character directly precedes the dot. -/
def searchBdotB (text cls : String) : Bool :=
  let t := text.data
  let p := '.' :: cls.data
  (List.range (t.length + 1)).any fun i =>
    boundaryAt t i && ciPrefixAt p (t.drop i) && boundaryAt t (i + p.length)

/-- The acceptance condition of the `succ` while-loop for counter value
`c`: the rendering is a valid class name and the collision search fails. -/
def acceptable (css : String) (c : Nat) : Bool :=
  validClassName (ts34 c) && !(searchBdotB css (ts34 c))

/-- An explicit counter value that is `≥ c` and acceptable for `css`
(it renders as `"a"` followed by zeros, longer than the whole text);
used as the fuel bound making the loop total. -/
def succBound (css : String) (c : Nat) : Nat := 10 * 34 ^ (max c css.data.length + 1)

/-- The while-loop of `Replacer.succ` (src/unnamed/part_001 lines
74-89): bump the counter past invalid or colliding renderings, return
the accepted rendering and the counter just past it. The fuel-exhausted
branch accepts unconditionally; `succ_spec` proves it is never taken. -/
def succLoop (css : String) : Nat → Nat → String × Nat
| 0, c => (ts34 c, c + 1)
| fuel+1, c => if acceptable css c then (ts34 c, c + 1) else succLoop css fuel (c + 1)

/-- `Replacer.succ`, as a pure function of the stylesheet text and the
current counter: returns the generated token and the new counter. -/
def succ (css : String) (c : Nat) : String × Nat :=
  succLoop css (succBound css c - c) c

/-! ## The two default-configuration regexes as scanners -/

/-- A character matched by `[0-9a-zA-Z\-_]`. -/
def isClassChar (c : Char) : Bool := c.isAlphanum || c == '-' || c == '_'

/-- Scanner for the default stylesheet-side pattern
`/\.[0-9a-zA-Z\-_]+/g` (`Replacer.generateCssClsRegExp`,
src/unnamed/part_001 line 135): splits a string into plain-text pieces
(`Sum.inl`) and matches (`Sum.inr`, a dot followed by the maximal
nonempty run of class characters), leftmost and non-overlapping as in
JavaScript global matching. -/
def cssScanAux : Nat → List Char → List (Sum String String)
| 0, _ => []
| _+1, [] => []
| fuel+1, c :: cs =>
  if c == '.' && (match cs.head? with | some d => isClassChar d | none => false) then
    Sum.inr (String.mk ('.' :: cs.takeWhile isClassChar)) :: cssScanAux fuel (cs.dropWhile isClassChar)
  else
    Sum.inl (String.mk [c]) :: cssScanAux fuel cs

/-- Segment decomposition of `s` under the default stylesheet pattern. -/
def cssScan (s : String) : List (Sum String String) := cssScanAux s.data.length s.data

/-- The matched substrings of a segment decomposition. -/
def segMatches (segs : List (Sum String String)) : List String :=
  segs.filterMap fun sg => match sg with | Sum.inr m => some m | Sum.inl _ => none

/-- `s.match(/\.[0-9a-zA-Z\-_]+/g)` as a list (empty for `null`). -/
def cssMatches (s : String) : List String := segMatches (cssScan s)

/-- First alternative of `new RegExp(classes.join("|"))` matching at the
current position: alternatives are tried in catalog order, literally and
case-sensitively. Catalog entries are nonempty by construction; an empty
entry is treated as non-matching (the empty-alternation degenerate case
is outside the model). -/
def firstAlt (classes : List String) (s : List Char) : Option String :=
  classes.find? fun cls => cls != "" && cls.data.isPrefixOf s

/-- Scanner for the default script-side pattern
`new RegExp(classes.join("|"), "g")` (`Replacer.generateJsClsRegExp`,
src/unnamed/part_001 line 148). -/
def jsScanAux (classes : List String) : Nat → List Char → List (Sum String String)
| 0, _ => []
| _+1, [] => []
| fuel+1, c :: cs =>
  match firstAlt classes (c :: cs) with
  | some m => Sum.inr m :: jsScanAux classes fuel (List.drop (m.length - 1) cs)
  | none => Sum.inl (String.mk [c]) :: jsScanAux classes fuel cs

/-- Segment decomposition of `s` under the script-side pattern. -/
def jsScan (classes : List String) (s : String) : List (Sum String String) :=
  jsScanAux classes s.data.length s.data

/-- `value.match(generateJsClsRegExp())` as a list (empty for `null`). -/
def jsMatches (classes : List String) (s : String) : List String :=
  segMatches (jsScan classes s)

/-! ## Engine state and the substitution table -/

/-- The mutable state of one `Replacer` instance: `counter` and `key`
(the pending token), the substitution table `items` (an insertion-ordered
object, modelled as an association list extended at the end), and the
replacement `count`. -/
structure St where
  counter : Nat
  key : String
  items : List (String × String)
  count : Nat
deriving DecidableEq, Repr

/-- Property lookup on the modelled `replacements.items` object. -/
def lookupStr : List (String × String) → String → Option String
| [], _ => none
| (k, v) :: rest, c => if k = c then some v else lookupStr rest c

/-- State at construction time (src/unnamed/part_001 lines 46-61):
`counter = 0`, `key = "_"`, empty table, zero count. -/
def initSt : St := St.mk 0 "_" [] 0

/-! ## `Replacer.replaceItem` and the script traversal -/

/-- `value.replace(regexp, a => \x7b count++; return items[a] \x7d)`:
rebuild the literal from its segments, substituting each match through
the table (an absent entry renders as `"undefined"`, as JavaScript
stringifies `undefined`). -/
def renderJs (items : List (String × String)) (segs : List (Sum String String)) : String :=
  String.join (segs.map fun sg => match sg with
    | Sum.inl t => t
    | Sum.inr m => (lookupStr items m).getD "undefined")

/-- The table-population step of the loop in `Replacer.replaceItem`
(src/unnamed/part_001 lines 224-229): a not-yet-mapped match is
registered under the pending key and a fresh pending key is taken from
`succ`. -/
def mintKeyStep (css : String) (s : St) (m : String) : St :=
  if (lookupStr s.items m).isSome then s
  else
    let r := succ css s.counter
    St.mk r.2 r.1 (s.items ++ [(m, s.key)]) s.count

/-- `Replacer.replaceItem` (src/unnamed/part_001 lines 215-238) on one
string-literal value: if the value has no matches, return it unchanged;
otherwise register the pending key for each not-yet-mapped match (taking
a fresh pending key from `succ` after each registration), then replace
every occurrence, bumping `count` once per occurrence. -/
def replaceItem (classes : List String) (css : String) (st : St) (value : String) : String × St :=
  let segs := jsScan classes value
  let ms := segMatches segs
  if ms.isEmpty then (value, st)
  else
    let st1 := ms.foldl (mintKeyStep css) st
    (renderJs st1.items segs, St.mk st1.counter st1.key st1.items (st1.count + ms.length))

/-- `Replacer.replace` under the default hook (src/unnamed/part_001
lines 189-208): apply `replaceItem` to every string literal of the
script in traversal order, returning the rewritten literals and the
final state. -/
def replacePhase (classes : List String) (css : String) : List String → St → List String × St
| [], st => ([], st)
| v :: vs, st =>
  let r := replaceItem classes css st v
  let rest := replacePhase classes css vs r.2
  (r.1 :: rest.1, rest.2)

/-- One step of `Replacer.replaceAll` (src/unnamed/part_001 lines
244-255): a catalog class missing from the table is registered under the
pending key, a fresh pending key is taken from `succ`, and `count` is
bumped once per registration. The source walks the catalog with a local
`key` variable seeded from `this.key` and never writes it back, so
`replaceAllStep` below restores the state's `key` field afterwards. -/
def mintAllStep (css : String) (s : St) (cls : String) : St :=
  if (lookupStr s.items cls).isSome then s
  else
    let t := succ css s.counter
    St.mk t.2 t.1 (s.items ++ [(cls, s.key)]) (s.count + 1)

/-- The fold of `Replacer.replaceAll` over the catalog, followed by the
restoration of the untouched `this.key` field. -/
def replaceAllStep (css : String) (classes : List String) (st : St) : St :=
  let r := classes.foldl (mintAllStep css) st
  St.mk r.counter st.key r.items r.count

/-! ## `Replacer.parseCssRules`: the class-name catalog -/

/-- A stylesheet rule as delivered by the external `css` parser: a style
rule with its selector strings, a media block with nested rules, or any
other rule kind. -/
inductive CRule where
| rule (selectors : List String) : CRule
| media (rules : List CRule) : CRule
| other : CRule

/-- Class names contributed by one style rule (src/unnamed/part_001
lines 172-174): match the class pattern against the selectors joined
with `" "`. The source joins the match array with `" "`, strips every
`"."` and splits on `" "` again; each match is a dot followed by a
nonempty run of class characters (never a dot or a space), so this
equals dropping the leading dot of each match. -/
def selNames (sels : List String) : List String :=
  (cssMatches (String.intercalate " " sels)).map fun m => m.drop 1

/-- The extraction loop of `Replacer.parseCssRules` (src/unnamed/part_001
lines 161-176): only top-level rules of type `"rule"` contribute; the
media branch is commented out in the source and contributes nothing. -/
def extractClasses : List CRule → List String
| [] => []
| CRule.rule sels :: rest => selNames sels ++ extractClasses rest
| CRule.media _ :: rest => extractClasses rest
| CRule.other :: rest => extractClasses rest

/-- Stable insertion of `x` into a length-descending sorted list: `x`
goes before the first strictly shorter element and after every at-least-
as-long one seen so far, but before equal-length elements that occur
later in the original list (the fold below processes the list from the
right). -/
def insertLenDesc (x : String) : List String → List String
| [] => [x]
| y :: ys => if y.length ≤ x.length then x :: y :: ys else y :: insertLenDesc x ys

/-- `classes.sort((a, b) => b.length - a.length)`: JavaScript array sort
is stable (ES2019), modelled as a stable insertion sort by descending
length. -/
def sortLenDesc (l : List String) : List String := l.foldr insertLenDesc []

/-- Helper for first-occurrence deduplication, carrying the set of
values already emitted. -/
def dedupFirstAux (seen : List String) : List String → List String
| [] => []
| x :: xs => if x ∈ seen then dedupFirstAux seen xs else x :: dedupFirstAux (x :: seen) xs

/-- `.filter((cls, pos) => classes.indexOf(cls) == pos)` on the sorted
array (src/unnamed/part_001 lines 180-182): keep exactly the first
occurrence of every value. -/
def dedupFirst (l : List String) : List String := dedupFirstAux [] l

/-- `this.classes` after `Replacer.parseCssRules`: extracted names,
sorted by descending length (stable), deduplicated keeping the first
occurrence. -/
def catalogOf (rules : List CRule) : List String :=
  dedupFirst (sortLenDesc (extractClasses rules))

/-! ## `Replacer.generateCss` -/

/-- Substring test `/undefined/.test s` and the `:not` test
`sels.join(" ").indexOf(sub) > -1`. -/
def containsStr (s sub : String) : Bool :=
  (List.range (s.data.length + 1)).any fun i => sub.data.isPrefixOf (s.data.drop i)

/-- Whether the rule's joined selector list contains `":not"`
(src/unnamed/part_001 line 306). -/
def hasNot (sels : List String) : Bool := containsStr (String.intercalate " " sels) ":not"

/-- The selector-rewriting replace callback of `Replacer.generateCss`
(src/unnamed/part_001 lines 304-310), processing the segments left to
right: for each match, strip the leading dot; if the class is unmapped
and the rule's joined selectors contain `":not"`, mint a token for it on
the spot via `succ`; emit `"."` plus the table entry (or `"undefined"`
for a still-unmapped class, as JavaScript stringifies it). -/
def mintCssStep (css : String) (nf : Bool) (st : St) (clazz : String) : St :=
  if (lookupStr st.items clazz).isNone && nf then
    let t := succ css st.counter
    St.mk t.2 st.key (st.items ++ [(clazz, t.1)]) st.count
  else st

/-- Segment-by-segment rewriting of one selector, left to right, with
the `:not` minting of `mintCssStep` applied at each match. -/
def substSegs (css : String) (nf : Bool) : List (Sum String String) → St → String × St
| [], st => ("", st)
| Sum.inl t :: rest, st =>
  let r := substSegs css nf rest st
  (t ++ r.1, r.2)
| Sum.inr m :: rest, st =>
  let clazz := m.drop 1
  let st1 := mintCssStep css nf st clazz
  let piece := "." ++ ((lookupStr st1.items clazz).getD "undefined")
  let r := substSegs css nf rest st1
  (piece ++ r.1, r.2)

/-- `selector.replace(generateCssClsRegExp(), callback)` for one
selector. -/
def substSelector (css : String) (nf : Bool) (st : St) (sel : String) : String × St :=
  substSegs css nf (cssScan sel) st

/-- Rewrite every selector of a rule in order, threading the state. -/
def rewriteSelectors (css : String) (nf : Bool) : List String → St → List String × St
| [], st => ([], st)
| sel :: rest, st =>
  let r := substSelector css nf st sel
  let rr := rewriteSelectors css nf rest r.2
  (r.1 :: rr.1, rr.2)

/-- Per-rule selector processing of `Replacer.generateCss`
(src/unnamed/part_001 lines 300-327): rewrite each selector, keep those
whose rewritten text does not contain `"undefined"`, and put the kept
list back only when nothing was dropped; otherwise empty the rule's
selector list (removing the rule). -/
def transformSelectors (css : String) (st : St) (sels : List String) : List String × St :=
  let nf := hasNot sels
  let r := rewriteSelectors css nf sels st
  let kept := r.1.filter fun s => !(containsStr s "undefined")
  (if kept.length = sels.length then kept else [], r.2)

/-- The inner loop over the rules of a media block (src/unnamed/part_001
lines 266-296): only rules of type `"rule"` are transformed. -/
def transformMediaRules (css : String) : List CRule → St → List CRule × St
| [], st => ([], st)
| CRule.rule sels :: rest, st =>
  let r := transformSelectors css st sels
  let rr := transformMediaRules css rest r.2
  (CRule.rule r.1 :: rr.1, rr.2)
| CRule.media inner :: rest, st =>
  let rr := transformMediaRules css rest st
  (CRule.media inner :: rr.1, rr.2)
| CRule.other :: rest, st =>
  let rr := transformMediaRules css rest st
  (CRule.other :: rr.1, rr.2)

/-- `Replacer.generateCss` (src/unnamed/part_001 lines 260-331) over the
rule list: style rules and the style rules nested one level inside media
blocks are transformed; everything else passes through. Serialization of
the resulting tree is the external collaborator `css.stringify`. -/
def generateCssModel (css : String) : List CRule → St → List CRule × St
| [], st => ([], st)
| CRule.rule sels :: rest, st =>
  let r := transformSelectors css st sels
  let rr := generateCssModel css rest r.2
  (CRule.rule r.1 :: rr.1, rr.2)
| CRule.media inner :: rest, st =>
  let r := transformMediaRules css inner st
  let rr := generateCssModel css rest r.2
  (CRule.media r.1 :: rr.1, rr.2)
| CRule.other :: rest, st =>
  let rr := generateCssModel css rest st
  (CRule.other :: rr.1, rr.2)

/-! ## One full run -/

/-- Everything observable after a run: the catalog, the rewritten script
literals, the rewritten stylesheet rule tree, and the final state
(table, counter and replacement count; `getReplacementsCount()` is the
`count` field). -/
structure RunResult where
  classes : List String
  jsLits : List String
  cssRules : List CRule
  st : St

/-- The pipeline driven by `run()` plus `generateCss()` as the gulp
adapter (src/unnamed/part_000) performs it: parse the catalog, rewrite
the script literals, optionally run `replaceAll`, then regenerate the
stylesheet. The stylesheet text `css` and its parsed rule list `rules`
are supplied together (parsing is the external collaborator). -/
def runPipeline (css : String) (rules : List CRule) (lits : List String) (replAll : Bool) :
    RunResult :=
  let classes := catalogOf rules
  let p := replacePhase classes css lits initSt
  let st2 := if replAll then replaceAllStep css classes p.2 else p.2
  let g := generateCssModel css rules st2
  RunResult.mk classes p.1 g.1 g.2

/-! ## Claim-side measures

Definitions below this point are not part of the program embedding; they
formalise quantities and predicates the specification talks about. -/

/-- The values (generated tokens) of the substitution table. -/
def vals (items : List (String × String)) : List String := items.map Prod.snd

/-- Every token that can sit in the table: the initial pending key `"_"`
or a base-34 rendering of a counter value below the current one. -/
def TokOk (k : Nat) (v : String) : Prop := v = "_" ∨ ∃ n, n < k ∧ v = ts34 n

/-- Number of pattern matches substituted in one literal list by the
script phase ("individual substring substitution occurrences across all
script literals"). -/
def jsOccs (classes : List String) (lits : List String) : Nat :=
  (lits.map fun v => (jsMatches classes v).length).sum

/-- Matches substituted across the selectors of one rule. -/
def selsOccs (sels : List String) : Nat := (sels.map fun s => (cssMatches s).length).sum

/-- Matches substituted across the style rules nested in a media block. -/
def cssOccsInner : List CRule → Nat
| [] => 0
| CRule.rule sels :: rest => selsOccs sels + cssOccsInner rest
| _ :: rest => cssOccsInner rest

/-- Number of pattern matches substituted by `generateCss` ("individual
substring substitution occurrences across all stylesheet selectors"). -/
def cssOccs : List CRule → Nat
| [] => 0
| CRule.rule sels :: rest => selsOccs sels + cssOccs rest
| CRule.media inner :: rest => cssOccsInner inner + cssOccs rest
| CRule.other :: rest => cssOccs rest

/-- The class names referenced by the matches inside a selector list. -/
def matchedClasses (sels : List String) : List String :=
  (sels.map fun s => (cssMatches s).map fun m => m.drop 1).flatten

/-- The specification's "occurs verbatim as a whole-word class reference
in the original stylesheet text": a literal `.cls` occurrence whose next
character is not a word character (or which ends the text). -/
def wholeWordClassRef (text cls : String) : Bool :=
  (List.range (text.data.length + 1)).any fun i =>
    ('.' :: cls.data).isPrefixOf (text.data.drop i) &&
      !(wordAt text.data (i + 1 + cls.data.length))

/-- Numeric value of one base-34 digit character (inverse of `digit34`). -/
def dval (c : Char) : Nat := if c.isDigit then c.toNat - 48 else c.toNat - 87

/-- Numeric value of a most-significant-first base-34 digit string. -/
def valDigits (l : List Char) : Nat := l.foldl (fun acc c => acc * 34 + dval c) 0

/-- Every table value is a possible token for the current counter. -/
def ItemsBounded (st : St) : Prop := ∀ v ∈ vals st.items, TokOk st.counter v

/-- The table's tokens are pairwise distinct and counter-bounded. -/
def ItemsOk (st : St) : Prop := (vals st.items).Nodup ∧ ItemsBounded st

/-- As `ItemsOk`, with the pending key also distinct from every table
value (holds from construction until `replaceAll` stops maintaining
`this.key`). -/
def KeyOk (st : St) : Prop :=
  (st.key :: vals st.items).Nodup ∧ ∀ v ∈ st.key :: vals st.items, TokOk st.counter v

/-- Table extension: every binding visible before remains visible,
unchanged ("once a class name is mapped, its token is never
reassigned"). -/
def Ext (a b : List (String × String)) : Prop :=
  ∀ c t, lookupStr a c = some t → lookupStr b c = some t

/-! ## Concrete runs used by the counterexamples and witnesses -/

/-- Stylesheet text `.foo{color:red}` of the end-to-end example. -/
def cssC2 : String := ".foo\x7bcolor:red\x7d"

/-- Its parse: one style rule with selector `.foo`. -/
def rulesC2 : List CRule := [CRule.rule [".foo"]]

/-- Stylesheet text `.aa{color:red}.aa,.bb{color:blue}`: the second rule
has two selectors, of which only `.aa` is referenced by the script. -/
def cssC1 : String := ".aa\x7bcolor:red\x7d.aa,.bb\x7bcolor:blue\x7d"

/-- Its parse. -/
def rulesC1 : List CRule := [CRule.rule [".aa"], CRule.rule [".aa", ".bb"]]

/-- Stylesheet text `.a:not(.c)[undefined]{color:red}`: the selector
carries a negation of an unreferenced class and an attribute selector
whose name is the literal text `undefined`. -/
def cssC4 : String := ".a:not(.c)[undefined]\x7bcolor:red\x7d"

/-- Its parse. -/
def rulesC4 : List CRule := [CRule.rule [".a:not(.c)[undefined]"]]

/-- Stylesheet text `.a{color:red}.b{color:blue}`, whose class `a` is
also the first token `succ` ever accepts. -/
def cssC5 : String := ".a\x7bcolor:red\x7d.b\x7bcolor:blue\x7d"

/-- Its parse. -/
def rulesC5 : List CRule := [CRule.rule [".a"], CRule.rule [".b"]]

/-! ## Lemmas about the base-34 rendering -/

theorem toDigits34Aux_fuel :
    ∀ (n f : Nat), n < f → toDigits34Aux f n = toDigits34Aux (n + 1) n := by
  intro n
  induction n using Nat.strong_induction_on with
  | _ n ih =>
    intro f hf
    cases f with
    | zero => omega
    | succ f =>
      by_cases h34 : n < 34
      · simp [toDigits34Aux, h34]
      · have hdiv : n / 34 < n := Nat.div_lt_self (by omega) (by norm_num)
        have h1 := ih (n / 34) hdiv f (by omega)
        have h2 := ih (n / 34) hdiv n hdiv
        simp [toDigits34Aux, h34, h1, h2]

theorem ts34_data (n : Nat) :
    (ts34 n).data =
      if n < 34 then [digit34 n] else (ts34 (n / 34)).data ++ [digit34 (n % 34)] := by
  show toDigits34Aux (n + 1) n = _
  by_cases h : n < 34
  · simp [toDigits34Aux, h]
  · have hdiv : n / 34 < n := Nat.div_lt_self (by omega) (by norm_num)
    have h2 : toDigits34Aux n (n / 34) = toDigits34Aux (n / 34 + 1) (n / 34) :=
      toDigits34Aux_fuel (n / 34) n hdiv
    simp [toDigits34Aux, h, h2]
    rfl

theorem dval_digit34 : ∀ n, n < 34 → dval (digit34 n) = n := by decide

theorem valDigits_snoc (l : List Char) (c : Char) :
    valDigits (l ++ [c]) = valDigits l * 34 + dval c := by
  unfold valDigits
  rw [List.foldl_append]
  rfl

theorem valDigits_ts34 : ∀ n, valDigits (ts34 n).data = n := by
  intro n
  induction n using Nat.strong_induction_on with
  | _ n ih =>
    rw [ts34_data]
    by_cases h : n < 34
    · simp only [h, if_pos]
      show 0 * 34 + dval (digit34 n) = n
      rw [dval_digit34 n h]
      omega
    · have hdiv : n / 34 < n := Nat.div_lt_self (by omega) (by norm_num)
      simp only [h, if_neg, if_false]
      rw [valDigits_snoc, ih (n / 34) hdiv, dval_digit34 (n % 34) (Nat.mod_lt _ (by norm_num))]
      omega

theorem ts34_inj {a b : Nat} (h : ts34 a = ts34 b) : a = b := by
  have ha := valDigits_ts34 a
  rw [h] at ha
  exact ha.symm.trans (valDigits_ts34 b)

theorem ts34_no_underscore : ∀ n, '_' ∉ (ts34 n).data := by
  intro n
  induction n using Nat.strong_induction_on with
  | _ n ih =>
    have hd : ∀ m, m < 34 → digit34 m ≠ '_' := by decide
    rw [ts34_data]
    by_cases h : n < 34
    · simp [h, (hd n h).symm]
    · have hdiv : n / 34 < n := Nat.div_lt_self (by omega) (by norm_num)
      simp [h, ih (n / 34) hdiv, (hd (n % 34) (Nat.mod_lt _ (by norm_num))).symm]

theorem ts34_ne_underscore (n : Nat) : ts34 n ≠ "_" := by
  intro h
  have h2 := ts34_no_underscore n
  rw [h] at h2
  exact h2 (by decide)

theorem ts34_ten_pow (m : Nat) :
    (ts34 (10 * 34 ^ m)).data = 'a' :: List.replicate m '0' := by
  induction m with
  | zero => decide
  | succ m ih =>
    have hge : (34:Nat) ≤ 34 ^ (m+1) := by
      calc (34:Nat) = 34 ^ 1 := by norm_num
      _ ≤ 34 ^ (m+1) := Nat.pow_le_pow_right (by norm_num) (by omega)
    have h1 : ¬ 10 * 34 ^ (m+1) < 34 := by
      have : 34 ^ (m+1) ≤ 10 * 34 ^ (m+1) := by omega
      omega
    have hdiv : 10 * 34 ^ (m+1) / 34 = 10 * 34 ^ m := by
      rw [pow_succ, ← mul_assoc]
      exact Nat.mul_div_cancel _ (by norm_num)
    have hmod : 10 * 34 ^ (m+1) % 34 = 0 := by
      rw [pow_succ, ← mul_assoc]
      exact Nat.mul_mod_left _ _
    rw [ts34_data]
    simp only [h1, if_false, if_neg]
    rw [hdiv, hmod, ih]
    have hzero : digit34 0 = '0' := by decide
    rw [hzero, List.replicate_succ']
    rfl

theorem valid_a_cons (l : List Char) :
    validClassName (String.mk ('a' :: l)) = l.all isTailChar := rfl

theorem valid_a_zeros (m : Nat) :
    validClassName (String.mk ('a' :: List.replicate m '0')) = true := by
  rw [valid_a_cons, List.all_eq_true]
  intro c hc
  rw [List.eq_of_mem_replicate hc]
  decide

theorem ciPrefixAt_le : ∀ (p s : List Char), ciPrefixAt p s = true → p.length ≤ s.length := by
  intro p
  induction p with
  | nil => intro s _; simp
  | cons c cs ih =>
    intro s h
    cases s with
    | nil => simp [ciPrefixAt] at h
    | cons d ds =>
      simp only [ciPrefixAt, Bool.and_eq_true] at h
      have := ih ds h.2
      simp [List.length_cons]
      omega

theorem searchBdotB_long (text cls : String)
    (h : text.data.length < cls.data.length + 1) : searchBdotB text cls = false := by
  unfold searchBdotB
  rw [List.any_eq_false]
  intro i _
  simp only [Bool.and_eq_true, not_and]
  intro h12 _
  have hle := ciPrefixAt_le _ _ h12.2
  have hdrop : (text.data.drop i).length ≤ text.data.length := by
    rw [List.length_drop]; omega
  simp only [List.length_cons] at hle
  omega

theorem acceptable_ten_pow (css : String) (m : Nat) (h : css.data.length ≤ m) :
    acceptable css (10 * 34 ^ m) = true := by
  have hmk : ts34 (10 * 34 ^ m) = String.mk ('a' :: List.replicate m '0') := by
    apply String.ext
    rw [ts34_ten_pow]
  have hlen : (ts34 (10 * 34 ^ m)).data.length = m + 1 := by
    rw [ts34_ten_pow]
    simp
  unfold acceptable
  rw [hmk, valid_a_zeros, searchBdotB_long]
  · rfl
  · rw [← hmk, hlen]
    omega

theorem le_succBound (css : String) (c : Nat) : c ≤ succBound css c := by
  unfold succBound
  have h1 : max c css.data.length < 34 ^ (max c css.data.length) :=
    Nat.lt_pow_self (by norm_num) _
  have h2 : (34:Nat) ^ (max c css.data.length) ≤ 34 ^ (max c css.data.length + 1) :=
    Nat.pow_le_pow_right (by norm_num) (by omega)
  have h3 : c ≤ max c css.data.length := le_max_left _ _
  omega

theorem acceptable_succBound (css : String) (c : Nat) :
    acceptable css (succBound css c) = true := by
  unfold succBound
  apply acceptable_ten_pow
  have h := le_max_right c css.data.length
  omega

theorem succLoop_spec (css : String) :
    ∀ (fuel c : Nat), (∃ j, j ≤ fuel ∧ acceptable css (c + j) = true) →
      ∃ cf, c ≤ cf ∧ acceptable css cf = true ∧ succLoop css fuel c = (ts34 cf, cf + 1) ∧
        ∀ m, c ≤ m → m < cf → acceptable css m = false := by
  intro fuel
  induction fuel with
  | zero =>
    intro c h
    rcases h with ⟨j, hj, hacc⟩
    have hj0 : j = 0 := by omega
    subst hj0
    exact ⟨c, le_refl c, by simpa using hacc, rfl, fun m h1 h2 => by omega⟩
  | succ fuel ih =>
    intro c h
    by_cases hc : acceptable css c = true
    · exact ⟨c, le_refl c, hc, by simp [succLoop, hc], fun m h1 h2 => by omega⟩
    · rcases h with ⟨j, hj, hacc⟩
      have hj0 : j ≠ 0 := by
        intro h0
        subst h0
        simp at hacc
        exact hc hacc
      rcases ih (c + 1) ⟨j - 1, by omega, by
        have : c + 1 + (j - 1) = c + j := by omega
        rw [this]
        exact hacc⟩ with ⟨cf, hcf1, hcf2, hcf3, hcf4⟩
      refine ⟨cf, by omega, hcf2, ?_, ?_⟩
      · simp [succLoop, hc, hcf3]
      · intro m h1 h2
        by_cases hm : m = c
        · subst hm
          exact Bool.eq_false_iff.mpr hc
        · exact hcf4 m (by omega) h2

theorem succ_spec (css : String) (c : Nat) :
    ∃ cf, c ≤ cf ∧ acceptable css cf = true ∧ succ css c = (ts34 cf, cf + 1) ∧
      ∀ m, c ≤ m → m < cf → acceptable css m = false := by
  unfold succ
  apply succLoop_spec
  refine ⟨succBound css c - c, le_refl _, ?_⟩
  have hle := le_succBound css c
  have : c + (succBound css c - c) = succBound css c := by omega
  rw [this]
  exact acceptable_succBound css c

theorem succ_valid (css : String) (c : Nat) : validClassName (succ css c).1 = true := by
  rcases succ_spec css c with ⟨cf, _, hacc, heq, _⟩
  rw [heq]
  exact (Bool.and_eq_true _ _ |>.mp hacc).1

/-! ## Character-class facts used to read the validity regex -/

theorem uint32_le_iff (a b : UInt32) : a ≤ b ↔ a.toNat ≤ b.toNat := Iff.rfl

theorem uint32_lt_iff (a b : UInt32) : a < b ↔ a.toNat < b.toNat := Iff.rfl

theorem isAlpha_not_digit (c : Char) (h : c.isAlpha = true) : c.isDigit = false := by
  simp [Char.isAlpha, Char.isUpper, Char.isLower] at h
  simp [Char.isDigit]
  rcases h with ⟨h1, h2⟩ | ⟨h1, h2⟩ <;>
  · intro h3
    rw [uint32_lt_iff]
    rw [uint32_le_iff] at h1 h2 h3
    have e1 : (57:UInt32).toNat = 57 := rfl
    have e2 : (48:UInt32).toNat = 48 := rfl
    have e3 : (65:UInt32).toNat = 65 := rfl
    have e4 : (90:UInt32).toNat = 90 := rfl
    have e5 : (97:UInt32).toNat = 97 := rfl
    have e6 : (122:UInt32).toNat = 122 := rfl
    omega

theorem validClassName_safe (s : String) (h : validClassName s = true) :
    (∀ ch rest, s.data = ch :: rest → ch.isDigit = false) ∧
    (∀ d rest, s.data = '-' :: d :: rest → d.isDigit = false) := by
  rw [validClassName.eq_def] at h
  split at h
  · exact absurd h (by simp)
  · exact absurd h (by simp)
  · next d rest heq =>
    constructor
    · intro ch rest2 hh
      rw [heq] at hh
      injection hh with h1 h2
      rw [← h1]
      decide
    · intro d2 rest2 hh
      rw [heq] at hh
      injection hh with h1 h2
      injection h2 with h3 h4
      rw [← h3]
      rcases Bool.and_eq_true _ _ |>.mp h with ⟨hv, _⟩
      rcases Bool.or_eq_true _ _ |>.mp hv with h5 | h6
      · rcases Bool.or_eq_true _ _ |>.mp h5 with h7 | h8
        · exact isAlpha_not_digit d h7
        · have hu : d = '_' := by simpa using h8
          rw [hu]; decide
      · have hu : d = '-' := by simpa using h6
        rw [hu]; decide
  · next c0 tl0 hn1 hn2 heq =>
    constructor
    · intro ch rest2 hh
      rw [heq] at hh
      injection hh with h1 h2
      rw [← h1]
      rcases Bool.and_eq_true _ _ |>.mp h with ⟨hv, _⟩
      rcases Bool.or_eq_true _ _ |>.mp hv with h5 | h6
      · exact isAlpha_not_digit c0 h5
      · have hu : c0 = '_' := by simpa using h6
        rw [hu]; decide
    · intro d2 rest2 hh
      rw [heq] at hh
      injection hh with h1 h2
      exact absurd h2 (fun hh2 => hn2 d2 rest2 h1 hh2)

/-- C8: every token returned by the token generator `succ` is a
CSS-identifier-safe string: it does not start with a digit and does not
start with a hyphen immediately followed by a digit (it passes the
validity regex, whose two branches forbid exactly those shapes). -/
theorem c8_token_identifier_safe (css : String) (c : Nat) :
    (∀ ch rest, ((succ css c).1).data = ch :: rest → ch.isDigit = false) ∧
    (∀ d rest, ((succ css c).1).data = '-' :: d :: rest → d.isDigit = false) :=
  validClassName_safe _ (succ_valid css c)

/-- C8 witness: on the empty stylesheet and counter 0, `succ` returns
`"a"`, whose head character is indeed not a digit. -/
theorem c8_token_identifier_safe_witness :
    ((succ "" 0).1).data = 'a' :: [] ∧ ('a').isDigit = false :=
  ⟨by decide, (c8_token_identifier_safe "" 0).1 'a' [] (by decide)⟩

/-- C10: in the media-block-aware variant, the token generator `succ`
terminates for every counter value and stylesheet text: the loop exits
at the least acceptable counter `cf ≥ c` (every counter between `c` and
`cf` was rejected) and returns its rendering together with `cf + 1`. -/
theorem c10_succ_terminates (css : String) (c : Nat) :
    ∃ cf, c ≤ cf ∧ acceptable css cf = true ∧ succ css c = (ts34 cf, cf + 1) ∧
      ∀ m, c ≤ m → m < cf → acceptable css m = false :=
  succ_spec css c

/-! ## Concrete counterexample runs -/

/-- C2 counterexample: on stylesheet `.foo{color:red}` and a script
containing the literal `"foo"`, the substitution table does not map
`foo` to `"0"` (the constructor seeds the pending key with `"_"`, and
`succ` can never return `"0"`, which fails the validity regex). -/
theorem c2_end_to_end_counterexample :
    lookupStr (runPipeline cssC2 rulesC2 ["foo"] false).st.items "foo" ≠ some "0" := by
  decide

/-- C2 as amended: the run maps `foo` to the initial pending key `"_"`
(counter ends at 11 with pending key `"a"`, one replacement counted),
rewrites the script literal to `"_"` and the stylesheet rule's selector
to `._`. -/
theorem c2_end_to_end :
    (runPipeline cssC2 rulesC2 ["foo"] false).st = St.mk 11 "a" [("foo", "_")] 1 ∧
    (runPipeline cssC2 rulesC2 ["foo"] false).jsLits = ["_"] ∧
    (runPipeline cssC2 rulesC2 ["foo"] false).cssRules = [CRule.rule ["._"]] :=
  ⟨by decide, by decide, rfl⟩

/-- C1 counterexample: in the run on `.aa{color:red}.aa,.bb{color:blue}`
with script literal `"aa"`, the second rule has one resolved selector
(`.aa`, rewritten `._`) and one unresolved (`.bb`), yet its selector
list is emptied — the rule is removed whole instead of keeping `._`. -/
theorem c1_rule_drop_counterexample :
    (runPipeline cssC1 rulesC1 ["aa"] false).cssRules =
      [CRule.rule ["._"], CRule.rule []] ∧
    CRule.rule ([] : List String) ≠ CRule.rule ["._"] :=
  ⟨rfl, by simp⟩

/-- C3 counterexample: in the `.foo{color:red}` run, one substitution is
performed in the script literal and one in the stylesheet selector, but
`getReplacementsCount()` is 1, not 2 — selector substitutions performed
by `generateCss` are never counted. -/
theorem c3_count_counterexample :
    (runPipeline cssC2 rulesC2 ["foo"] false).st.count ≠
      jsOccs (catalogOf rulesC2) ["foo"] + cssOccs rulesC2 := by
  decide

/-- C5 at its failing input: running on `.a{color:red}.b{color:blue}`
with script literals `"a"` and `"b"` assigns to class `b` the token
`"a"`, even though `.a` occurs verbatim as a whole-word class reference
in the original stylesheet text. The collision guard
`'\b\.' + cls + '\b'` demands a word character immediately before the
dot, so it never fires for `.a` at the start of the text. -/
theorem c5_collision_code_bug :
    lookupStr (runPipeline cssC5 rulesC5 ["a", "b"] false).st.items "b" = some "a" ∧
    wholeWordClassRef cssC5 "a" = true := by
  decide

/-- C4 counterexample: on `.a:not(.c)[undefined]{color:red}` with script
literal `"a"`, the negated unmapped class `c` does get a minted token
(`"b"`), but the selector is dropped all the same — its rewritten text
contains the attribute name `undefined`, so the rule's selector list is
emptied rather than rewritten. -/
theorem c4_not_minting_counterexample :
    (runPipeline cssC4 rulesC4 ["a"] false).cssRules = [CRule.rule []] ∧
    lookupStr (runPipeline cssC4 rulesC4 ["a"] false).st.items "c" = some "b" :=
  ⟨rfl, by decide⟩

/-! ## Sorting and deduplication lemmas for the catalog -/

theorem mem_insertLenDesc {x z : String} :
    ∀ l, z ∈ insertLenDesc x l ↔ z = x ∨ z ∈ l := by
  intro l
  induction l with
  | nil => simp [insertLenDesc]
  | cons y ys ih =>
    simp only [insertLenDesc]
    by_cases h : y.length ≤ x.length
    · simp [h]
    · simp only [h, if_false, if_neg, List.mem_cons, ih]
      tauto

theorem pairwise_insertLenDesc {x : String} :
    ∀ {l}, List.Pairwise (fun a b : String => b.length ≤ a.length) l →
      List.Pairwise (fun a b : String => b.length ≤ a.length) (insertLenDesc x l) := by
  intro l
  induction l with
  | nil => intro _; simp [insertLenDesc]
  | cons y ys ih =>
    intro h
    rcases List.pairwise_cons.mp h with ⟨hy, hys⟩
    simp only [insertLenDesc]
    by_cases hxy : y.length ≤ x.length
    · rw [if_pos hxy]
      refine List.pairwise_cons.mpr ⟨?_, h⟩
      intro z hz
      rcases List.mem_cons.mp hz with rfl | hz2
      · exact hxy
      · exact le_trans (hy z hz2) hxy
    · rw [if_neg hxy]
      refine List.pairwise_cons.mpr ⟨?_, ih hys⟩
      intro z hz
      rcases mem_insertLenDesc _ |>.mp hz with rfl | hz2
      · omega
      · exact hy z hz2

theorem sortLenDesc_cons (x : String) (l : List String) :
    sortLenDesc (x :: l) = insertLenDesc x (sortLenDesc l) := rfl

theorem pairwise_sortLenDesc (l : List String) :
    List.Pairwise (fun a b : String => b.length ≤ a.length) (sortLenDesc l) := by
  induction l with
  | nil => simp [sortLenDesc]
  | cons x xs ih =>
    rw [sortLenDesc_cons]
    exact pairwise_insertLenDesc ih

theorem mem_sortLenDesc {z : String} : ∀ l, z ∈ sortLenDesc l ↔ z ∈ l := by
  intro l
  induction l with
  | nil => simp [sortLenDesc]
  | cons x xs ih =>
    rw [sortLenDesc_cons, mem_insertLenDesc, ih]
    simp

theorem filter_insertLenDesc_pos {x : String} {k : Nat} (hx : x.length = k) :
    ∀ l, (insertLenDesc x l).filter (fun s => s.length == k) =
      x :: l.filter (fun s => s.length == k) := by
  intro l
  induction l with
  | nil => simp [insertLenDesc, hx]
  | cons y ys ih =>
    simp only [insertLenDesc]
    by_cases h : y.length ≤ x.length
    · rw [if_pos h]
      simp [List.filter_cons, hx]
    · rw [if_neg h]
      have hy : (y.length == k) = false := by
        rw [beq_eq_false_iff_ne]
        omega
      simp only [List.filter_cons, hy, cond_false, if_neg, Bool.false_eq_true, if_false, ih]

theorem filter_insertLenDesc_neg {x : String} {k : Nat} (hx : x.length ≠ k) :
    ∀ l, (insertLenDesc x l).filter (fun s => s.length == k) =
      l.filter (fun s => s.length == k) := by
  intro l
  have hxb : (x.length == k) = false := by rwa [beq_eq_false_iff_ne]
  induction l with
  | nil => simp [insertLenDesc, hxb]
  | cons y ys ih =>
    simp only [insertLenDesc]
    by_cases h : y.length ≤ x.length
    · rw [if_pos h]
      simp [List.filter_cons, hxb]
    · rw [if_neg h]
      simp only [List.filter_cons, ih]

theorem filter_sortLenDesc (k : Nat) :
    ∀ l : List String, (sortLenDesc l).filter (fun s => s.length == k) =
      l.filter (fun s => s.length == k) := by
  intro l
  induction l with
  | nil => rfl
  | cons x xs ih =>
    rw [sortLenDesc_cons]
    by_cases hx : x.length = k
    · rw [filter_insertLenDesc_pos hx, ih]
      simp [List.filter_cons, hx]
    · rw [filter_insertLenDesc_neg hx, ih]
      have hxb : (x.length == k) = false := by rwa [beq_eq_false_iff_ne]
      simp [List.filter_cons, hxb]

theorem mem_dedupFirstAux {z : String} :
    ∀ (l seen : List String), z ∈ dedupFirstAux seen l ↔ z ∈ l ∧ z ∉ seen := by
  intro l
  induction l with
  | nil => intro seen; simp [dedupFirstAux]
  | cons x xs ih =>
    intro seen
    simp only [dedupFirstAux]
    by_cases h : x ∈ seen
    · rw [if_pos h, ih]
      simp only [List.mem_cons]
      constructor
      · rintro ⟨h1, h2⟩
        exact ⟨Or.inr h1, h2⟩
      · rintro ⟨h1 | h1, h2⟩
        · exact absurd (h1 ▸ h) h2
        · exact ⟨h1, h2⟩
    · rw [if_neg h]
      simp only [List.mem_cons, ih, List.mem_cons]
      constructor
      · rintro (rfl | ⟨h1, h2⟩)
        · exact ⟨Or.inl rfl, h⟩
        · exact ⟨Or.inr h1, fun hs => h2 (Or.inr hs)⟩
      · rintro ⟨rfl | h1, h2⟩
        · exact Or.inl rfl
        · by_cases hzx : z = x
          · exact Or.inl hzx
          · exact Or.inr ⟨h1, fun hs => by
              rcases hs with h3 | h3
              · exact hzx h3
              · exact h2 h3⟩

theorem nodup_dedupFirstAux : ∀ (l seen : List String), (dedupFirstAux seen l).Nodup := by
  intro l
  induction l with
  | nil => intro seen; simp [dedupFirstAux]
  | cons x xs ih =>
    intro seen
    simp only [dedupFirstAux]
    by_cases h : x ∈ seen
    · rw [if_pos h]; exact ih seen
    · rw [if_neg h]
      refine List.nodup_cons.mpr ⟨?_, ih (x :: seen)⟩
      intro hmem
      exact (mem_dedupFirstAux _ _ |>.mp hmem).2 (List.mem_cons_self x seen)

theorem sublist_dedupFirstAux :
    ∀ (l seen : List String), List.Sublist (dedupFirstAux seen l) l := by
  intro l
  induction l with
  | nil => intro seen; simp [dedupFirstAux]
  | cons x xs ih =>
    intro seen
    simp only [dedupFirstAux]
    by_cases h : x ∈ seen
    · rw [if_pos h]
      exact List.Sublist.cons x (ih seen)
    · rw [if_neg h]
      exact List.Sublist.cons₂ x (ih (x :: seen))

theorem filter_dedupFirstAux (p : String → Bool) :
    ∀ (l seen1 seen2 : List String),
      (∀ x, p x = true → (x ∈ seen1 ↔ x ∈ seen2)) →
      (dedupFirstAux seen1 l).filter p = dedupFirstAux seen2 (l.filter p) := by
  intro l
  induction l with
  | nil => intro seen1 seen2 _; rfl
  | cons x xs ih =>
    intro seen1 seen2 hcong
    by_cases hp : p x = true
    · have hfx : (x :: xs).filter p = x :: xs.filter p := by
        simp [List.filter_cons, hp]
      by_cases hs : x ∈ seen1
      · have hs2 : x ∈ seen2 := (hcong x hp).mp hs
        simp only [dedupFirstAux, if_pos hs, hfx, if_pos hs2]
        exact ih seen1 seen2 hcong
      · have hs2 : x ∉ seen2 := fun hh => hs ((hcong x hp).mpr hh)
        simp only [dedupFirstAux, if_neg hs, hfx, if_neg hs2]
        rw [List.filter_cons, hp]
        simp only [if_pos]
        congr 1
        apply ih
        intro y hy
        simp only [List.mem_cons]
        rw [hcong y hy]
    · have hpf : p x = false := Bool.eq_false_iff.mpr hp
      have hfx : (x :: xs).filter p = xs.filter p := by
        simp [List.filter_cons, hpf]
      by_cases hs : x ∈ seen1
      · simp only [dedupFirstAux, if_pos hs]
        rw [hfx]
        exact ih seen1 seen2 hcong
      · simp only [dedupFirstAux, if_neg hs]
        rw [List.filter_cons, hpf]
        simp only [Bool.false_eq_true, if_false]
        rw [hfx]
        apply ih
        intro y hy
        have hyx : y ≠ x := fun hh => by rw [hh] at hy; rw [hy] at hpf; exact absurd hpf (by simp)
        simp only [List.mem_cons]
        rw [hcong y hy]
        constructor
        · rintro (h1 | h1)
          · exact absurd h1 hyx
          · exact h1
        · exact fun h1 => Or.inr h1

/-- C7: after `parseCssRules`, the catalog is sorted by descending
length, duplicate-free, contains exactly the extracted class names, and,
length class by length class, lists names in first-appearance order with
duplicates removed keeping the first occurrence (stable tie-break);
in particular, for selectors `.ab`, `.a`, `.abc` in that source order
the catalog is `["abc", "ab", "a"]`. -/
theorem c7_catalog_order :
    (∀ rules : List CRule,
      List.Pairwise (fun a b : String => b.length ≤ a.length) (catalogOf rules) ∧
      (catalogOf rules).Nodup ∧
      (∀ x, x ∈ catalogOf rules ↔ x ∈ extractClasses rules) ∧
      (∀ k, (catalogOf rules).filter (fun s => s.length == k) =
        dedupFirst ((extractClasses rules).filter (fun s => s.length == k)))) ∧
    catalogOf [CRule.rule [".ab"], CRule.rule [".a"], CRule.rule [".abc"]] =
      ["abc", "ab", "a"] := by
  constructor
  · intro rules
    refine ⟨?_, ?_, ?_, ?_⟩
    · exact List.Pairwise.sublist (sublist_dedupFirstAux _ [])
        (pairwise_sortLenDesc (extractClasses rules))
    · exact nodup_dedupFirstAux _ []
    · intro x
      unfold catalogOf dedupFirst
      rw [mem_dedupFirstAux, mem_sortLenDesc]
      simp
    · intro k
      unfold catalogOf dedupFirst
      rw [filter_dedupFirstAux _ _ [] [] (fun _ _ => Iff.rfl), filter_sortLenDesc]
  · decide

/-- C9: class-name extraction considers only top-level rules of type
`rule`: a name is in the catalog exactly when some top-level style
rule's selectors produce it, so names appearing solely inside rules
nested in media blocks never enter the catalog (as the concrete media
example shows). -/
theorem c9_media_excluded :
    (∀ (rules : List CRule) (c : String),
      c ∈ catalogOf rules ↔ ∃ sels, CRule.rule sels ∈ rules ∧ c ∈ selNames sels) ∧
    catalogOf [CRule.media [CRule.rule [".m"]], CRule.rule [".a"]] = ["a"] := by
  have hext : ∀ (rules : List CRule) (c : String),
      c ∈ extractClasses rules ↔ ∃ sels, CRule.rule sels ∈ rules ∧ c ∈ selNames sels := by
    intro rules
    induction rules with
    | nil => intro c; simp [extractClasses]
    | cons r rest ih =>
      intro c
      cases r with
      | rule sels =>
        simp only [extractClasses, List.mem_append, ih]
        constructor
        · rintro (h | ⟨s2, hm, hc⟩)
          · exact ⟨sels, List.mem_cons_self _ _, h⟩
          · exact ⟨s2, List.mem_cons_of_mem _ hm, hc⟩
        · rintro ⟨s2, hm, hc⟩
          rcases List.mem_cons.mp hm with heq | hm2
          · injection heq with hs
            rw [← hs]
            exact Or.inl hc
          · exact Or.inr ⟨s2, hm2, hc⟩
      | media inner =>
        simp only [extractClasses, ih]
        constructor
        · rintro ⟨s2, hm, hc⟩
          exact ⟨s2, List.mem_cons_of_mem _ hm, hc⟩
        · rintro ⟨s2, hm, hc⟩
          rcases List.mem_cons.mp hm with heq | hm2
          · exact absurd heq (by simp)
          · exact ⟨s2, hm2, hc⟩
      | other =>
        simp only [extractClasses, ih]
        constructor
        · rintro ⟨s2, hm, hc⟩
          exact ⟨s2, List.mem_cons_of_mem _ hm, hc⟩
        · rintro ⟨s2, hm, hc⟩
          rcases List.mem_cons.mp hm with heq | hm2
          · exact absurd heq (by simp)
          · exact ⟨s2, hm2, hc⟩
  constructor
  · intro rules c
    unfold catalogOf dedupFirst
    rw [mem_dedupFirstAux, mem_sortLenDesc]
    simp only [List.not_mem_nil, not_false_iff, and_true]
    exact hext rules c
  · decide

/-! ## Table-lookup lemmas -/

theorem lookupStr_mem :
    ∀ (l : List (String × String)) (c t : String), lookupStr l c = some t → (c, t) ∈ l := by
  intro l
  induction l with
  | nil => intro c t h; simp [lookupStr] at h
  | cons p rest ih =>
    intro c t h
    rcases p with ⟨k, v⟩
    simp only [lookupStr] at h
    by_cases hk : k = c
    · rw [if_pos hk] at h
      injection h with hv
      subst hk
      rw [← hv]
      exact List.mem_cons_self _ _
    · rw [if_neg hk] at h
      exact List.mem_cons_of_mem _ (ih c t h)

theorem vals_append (l l2 : List (String × String)) : vals (l ++ l2) = vals l ++ vals l2 :=
  List.map_append _ _ _

theorem lookupStr_mem_vals (l : List (String × String)) (c t : String)
    (h : lookupStr l c = some t) : t ∈ vals l :=
  List.mem_map.mpr ⟨(c, t), lookupStr_mem l c t h, rfl⟩

theorem lookupStr_inj :
    ∀ (l : List (String × String)), (vals l).Nodup →
      ∀ c1 c2 t, lookupStr l c1 = some t → lookupStr l c2 = some t → c1 = c2 := by
  intro l
  induction l with
  | nil => intro _ c1 c2 t h; simp [lookupStr] at h
  | cons p rest ih =>
    rcases p with ⟨k, v⟩
    intro hnd c1 c2 t h1 h2
    have hvd : v ∉ vals rest := (List.nodup_cons.mp hnd).1
    have hnd2 : (vals rest).Nodup := (List.nodup_cons.mp hnd).2
    simp only [lookupStr] at h1 h2
    by_cases hk1 : k = c1 <;> by_cases hk2 : k = c2
    · rw [← hk1, ← hk2]
    · rw [if_pos hk1] at h1
      rw [if_neg hk2] at h2
      injection h1 with hv1
      rw [hv1] at hvd
      exact absurd (lookupStr_mem_vals rest c2 t h2) hvd
    · rw [if_neg hk1] at h1
      rw [if_pos hk2] at h2
      injection h2 with hv2
      rw [hv2] at hvd
      exact absurd (lookupStr_mem_vals rest c1 t h1) hvd
    · rw [if_neg hk1] at h1
      rw [if_neg hk2] at h2
      exact ih hnd2 c1 c2 t h1 h2

theorem lookupStr_append_some :
    ∀ (l l2 : List (String × String)) (c t : String),
      lookupStr l c = some t → lookupStr (l ++ l2) c = some t := by
  intro l
  induction l with
  | nil => intro l2 c t h; simp [lookupStr] at h
  | cons p rest ih =>
    rcases p with ⟨k, v⟩
    intro l2 c t h
    simp only [lookupStr] at h
    simp only [List.cons_append, lookupStr]
    by_cases hk : k = c
    · rwa [if_pos hk] at h ⊢
    · rw [if_neg hk] at h ⊢
      exact ih l2 c t h

theorem lookupStr_append_singleton_ne :
    ∀ (l : List (String × String)) (k v c : String), k ≠ c →
      lookupStr (l ++ [(k, v)]) c = lookupStr l c := by
  intro l
  induction l with
  | nil => intro k v c h; simp [lookupStr, h]
  | cons p rest ih =>
    rcases p with ⟨k0, v0⟩
    intro k v c h
    simp only [List.cons_append, lookupStr]
    by_cases hk : k0 = c
    · rw [if_pos hk, if_pos hk]
    · rw [if_neg hk, if_neg hk]
      exact ih k v c h

theorem lookupStr_append_singleton_self :
    ∀ (l : List (String × String)) (k v : String), lookupStr l k = none →
      lookupStr (l ++ [(k, v)]) k = some v := by
  intro l
  induction l with
  | nil => intro k v _; simp [lookupStr]
  | cons p rest ih =>
    rcases p with ⟨k0, v0⟩
    intro k v h
    simp only [lookupStr] at h
    simp only [List.cons_append, lookupStr]
    by_cases hk : k0 = k
    · rw [if_pos hk] at h
      exact absurd h (by simp)
    · rw [if_neg hk] at h ⊢
      exact ih k v h

theorem ext_refl (l : List (String × String)) : Ext l l := fun _ _ h => h

theorem ext_trans {a b c : List (String × String)} (h1 : Ext a b) (h2 : Ext b c) :
    Ext a c := fun x t h => h2 x t (h1 x t h)

theorem ext_append (l l2 : List (String × String)) : Ext l (l ++ l2) :=
  fun c t h => lookupStr_append_some l l2 c t h

/-! ## Token invariants across minting steps -/

theorem tokOk_mono {k k2 : Nat} {v : String} (h : TokOk k v) (hle : k ≤ k2) : TokOk k2 v := by
  rcases h with h | ⟨n, hn, hv⟩
  · exact Or.inl h
  · exact Or.inr ⟨n, by omega, hv⟩

theorem tokOk_ne_fresh {k : Nat} {v : String} {cf : Nat} (h : TokOk k v) (hle : k ≤ cf) :
    v ≠ ts34 cf := by
  rcases h with h | ⟨n, hn, hv⟩
  · rw [h]
    exact fun hh => ts34_ne_underscore cf hh.symm
  · rw [hv]
    intro hh
    have := ts34_inj hh
    omega

theorem keyOk_mint (css : String) (st : St) (cls : String) (cnt : Nat) (h : KeyOk st) :
    KeyOk (St.mk (succ css st.counter).2 (succ css st.counter).1
      (st.items ++ [(cls, st.key)]) cnt) := by
  rcases succ_spec css st.counter with ⟨cf, hge, _, heq, _⟩
  rcases h with ⟨hnd, hbnd⟩
  have hvals : vals (st.items ++ [(cls, st.key)]) = vals st.items ++ [st.key] := by
    rw [vals_append]; rfl
  constructor
  · show ((succ css st.counter).1 :: vals (st.items ++ [(cls, st.key)])).Nodup
    rw [hvals, heq]
    refine List.nodup_cons.mpr ⟨?_, ?_⟩
    · intro hmem
      rcases List.mem_append.mp hmem with hm | hm
      · exact tokOk_ne_fresh (hbnd _ (List.mem_cons_of_mem _ hm)) hge rfl
      · have : st.key = ts34 cf := (by simpa using hm : ts34 cf = st.key).symm
        exact tokOk_ne_fresh (hbnd _ (List.mem_cons_self _ _)) hge this
    · exact (List.perm_append_singleton _ _).nodup_iff.mpr hnd
  · intro v hv
    rw [hvals] at hv
    have hcnt : (St.mk (succ css st.counter).2 (succ css st.counter).1
        (st.items ++ [(cls, st.key)]) cnt).counter = cf + 1 := by rw [heq]
    rw [hcnt]
    rcases List.mem_cons.mp hv with hm | hm
    · rw [hm, heq]
      exact Or.inr ⟨cf, by omega, rfl⟩
    · rcases List.mem_append.mp hm with hm2 | hm2
      · exact tokOk_mono (hbnd _ (List.mem_cons_of_mem _ hm2)) (by omega)
      · have : v = st.key := by simpa using hm2
        rw [this]
        exact tokOk_mono (hbnd _ (List.mem_cons_self _ _)) (by omega)

theorem keyOk_itemsOk {st : St} (h : KeyOk st) : ItemsOk st :=
  ⟨(List.nodup_cons.mp h.1).2, fun v hv => h.2 v (List.mem_cons_of_mem _ hv)⟩

theorem itemsOk_mintCss (css : String) (st : St) (clazz : String) (h : ItemsOk st) :
    ItemsOk (St.mk (succ css st.counter).2 st.key
      (st.items ++ [(clazz, (succ css st.counter).1)]) st.count) := by
  rcases succ_spec css st.counter with ⟨cf, hge, _, heq, _⟩
  rcases h with ⟨hnd, hbnd⟩
  have hvals : vals (st.items ++ [(clazz, (succ css st.counter).1)]) =
      vals st.items ++ [(succ css st.counter).1] := by
    rw [vals_append]; rfl
  constructor
  · show (vals (st.items ++ [(clazz, (succ css st.counter).1)])).Nodup
    rw [hvals, heq]
    refine (List.perm_append_singleton _ _).nodup_iff.mpr ?_
    refine List.nodup_cons.mpr ⟨?_, hnd⟩
    intro hmem
    exact tokOk_ne_fresh (hbnd _ hmem) hge rfl
  · intro v hv
    rw [hvals] at hv
    show TokOk (succ css st.counter).2 v
    rw [heq] at hv ⊢
    rcases List.mem_append.mp hv with hm | hm
    · exact tokOk_mono (hbnd _ hm) (by omega)
    · have : v = ts34 cf := by simpa using hm
      rw [this]
      exact Or.inr ⟨cf, by omega, rfl⟩

theorem succ_counter_le (css : String) (c : Nat) : c + 1 ≤ (succ css c).2 := by
  rcases succ_spec css c with ⟨cf, hge, _, heq, _⟩
  rw [heq]
  omega

/-! ## Per-phase invariants: script substitution -/

theorem mintKeyStep_inv (css : String) (st : St) (m : String) :
    st.counter ≤ (mintKeyStep css st m).counter ∧
    Ext st.items (mintKeyStep css st m).items ∧
    (KeyOk st → KeyOk (mintKeyStep css st m)) ∧
    (mintKeyStep css st m).count = st.count := by
  unfold mintKeyStep
  by_cases h : (lookupStr st.items m).isSome
  · rw [if_pos h]
    exact ⟨le_refl _, ext_refl _, fun hk => hk, rfl⟩
  · rw [if_neg h]
    refine ⟨?_, ?_, ?_, rfl⟩
    · show st.counter ≤ (succ css st.counter).2
      have := succ_counter_le css st.counter
      omega
    · exact ext_append _ _
    · intro hk
      exact keyOk_mint css st m st.count hk

theorem foldl_mintKeyStep_inv (css : String) :
    ∀ (ms : List String) (st : St),
      st.counter ≤ (ms.foldl (mintKeyStep css) st).counter ∧
      Ext st.items (ms.foldl (mintKeyStep css) st).items ∧
      (KeyOk st → KeyOk (ms.foldl (mintKeyStep css) st)) ∧
      (ms.foldl (mintKeyStep css) st).count = st.count := by
  intro ms
  induction ms with
  | nil => intro st; exact ⟨le_refl _, ext_refl _, fun hk => hk, rfl⟩
  | cons m rest ih =>
    intro st
    rcases mintKeyStep_inv css st m with ⟨h1, h2, h3, h4⟩
    rcases ih (mintKeyStep css st m) with ⟨g1, g2, g3, g4⟩
    simp only [List.foldl_cons]
    exact ⟨le_trans h1 g1, ext_trans h2 g2, fun hk => g3 (h3 hk), by rw [g4, h4]⟩

theorem replaceItem_inv (classes : List String) (css : String) (st : St) (v : String) :
    st.counter ≤ (replaceItem classes css st v).2.counter ∧
    Ext st.items (replaceItem classes css st v).2.items ∧
    (KeyOk st → KeyOk (replaceItem classes css st v).2) ∧
    (replaceItem classes css st v).2.count = st.count + (jsMatches classes v).length := by
  unfold replaceItem
  by_cases h : (segMatches (jsScan classes v)).isEmpty
  · rw [if_pos h]
    have hnil : segMatches (jsScan classes v) = [] := List.isEmpty_iff.mp h
    have hlen : (jsMatches classes v).length = 0 := by
      unfold jsMatches
      rw [hnil]
      rfl
    refine ⟨le_refl _, ext_refl _, fun hk => hk, ?_⟩
    show st.count = st.count + (jsMatches classes v).length
    omega
  · rw [if_neg h]
    rcases foldl_mintKeyStep_inv css (segMatches (jsScan classes v)) st with ⟨h1, h2, h3, h4⟩
    refine ⟨h1, h2, ?_, ?_⟩
    · intro hk
      have hkk := h3 hk
      rcases hkk with ⟨hnd, hbnd⟩
      exact ⟨hnd, hbnd⟩
    · show ((segMatches (jsScan classes v)).foldl (mintKeyStep css) st).count +
        (segMatches (jsScan classes v)).length = st.count + (jsMatches classes v).length
      rw [h4]
      rfl

theorem replacePhase_inv (classes : List String) (css : String) :
    ∀ (lits : List String) (st : St),
      st.counter ≤ (replacePhase classes css lits st).2.counter ∧
      Ext st.items (replacePhase classes css lits st).2.items ∧
      (KeyOk st → KeyOk (replacePhase classes css lits st).2) ∧
      (replacePhase classes css lits st).2.count = st.count + jsOccs classes lits := by
  intro lits
  induction lits with
  | nil =>
    intro st
    exact ⟨le_refl _, ext_refl _, fun hk => hk, by simp [replacePhase, jsOccs]⟩
  | cons v vs ih =>
    intro st
    rcases replaceItem_inv classes css st v with ⟨h1, h2, h3, h4⟩
    rcases ih (replaceItem classes css st v).2 with ⟨g1, g2, g3, g4⟩
    have hocc : jsOccs classes (v :: vs) = (jsMatches classes v).length + jsOccs classes vs := by
      unfold jsOccs
      simp
    refine ⟨?_, ?_, ?_, ?_⟩
    · exact le_trans h1 g1
    · exact ext_trans h2 g2
    · exact fun hk => g3 (h3 hk)
    · show (replacePhase classes css vs (replaceItem classes css st v).2).2.count = _
      rw [g4, h4, hocc]
      omega

theorem replacePhase_state_append (classes : List String) (css : String) :
    ∀ (l1 l2 : List String) (st : St),
      (replacePhase classes css (l1 ++ l2) st).2 =
        (replacePhase classes css l2 (replacePhase classes css l1 st).2).2 := by
  intro l1
  induction l1 with
  | nil => intro l2 st; rfl
  | cons v vs ih =>
    intro l2 st
    simp only [List.cons_append, replacePhase]
    exact ih l2 (replaceItem classes css st v).2

/-! ## Per-phase invariants: `replaceAll` -/

theorem mintAllStep_inv (css : String) (st : St) (cls : String) :
    st.counter ≤ (mintAllStep css st cls).counter ∧
    Ext st.items (mintAllStep css st cls).items ∧
    (KeyOk st → KeyOk (mintAllStep css st cls)) := by
  unfold mintAllStep
  by_cases h : (lookupStr st.items cls).isSome
  · rw [if_pos h]
    exact ⟨le_refl _, ext_refl _, fun hk => hk⟩
  · rw [if_neg h]
    refine ⟨?_, ?_, ?_⟩
    · show st.counter ≤ (succ css st.counter).2
      have := succ_counter_le css st.counter
      omega
    · exact ext_append _ _
    · intro hk
      exact keyOk_mint css st cls (st.count + 1) hk

theorem foldl_mintAllStep_inv (css : String) :
    ∀ (classes : List String) (st : St),
      st.counter ≤ (classes.foldl (mintAllStep css) st).counter ∧
      Ext st.items (classes.foldl (mintAllStep css) st).items ∧
      (KeyOk st → KeyOk (classes.foldl (mintAllStep css) st)) := by
  intro classes
  induction classes with
  | nil => intro st; exact ⟨le_refl _, ext_refl _, fun hk => hk⟩
  | cons cls rest ih =>
    intro st
    rcases mintAllStep_inv css st cls with ⟨h1, h2, h3⟩
    rcases ih (mintAllStep css st cls) with ⟨g1, g2, g3⟩
    simp only [List.foldl_cons]
    exact ⟨le_trans h1 g1, ext_trans h2 g2, fun hk => g3 (h3 hk)⟩

theorem foldl_mintAllStep_count (css : String) :
    ∀ (classes : List String) (st : St), classes.Nodup →
      (classes.foldl (mintAllStep css) st).count =
        st.count + ((classes.filter fun c => (lookupStr st.items c).isNone).length) := by
  intro classes
  induction classes with
  | nil => intro st _; simp
  | cons cls rest ih =>
    intro st hnd
    rcases List.nodup_cons.mp hnd with ⟨hmem, hnd2⟩
    simp only [List.foldl_cons]
    by_cases h : (lookupStr st.items cls).isSome
    · have hstep : mintAllStep css st cls = st := by
        unfold mintAllStep
        rw [if_pos h]
      have hfilter : ((cls :: rest).filter fun c => (lookupStr st.items c).isNone) =
          rest.filter fun c => (lookupStr st.items c).isNone := by
        have : (lookupStr st.items cls).isNone = false := by
          rcases Option.isSome_iff_exists.mp h with ⟨t, ht⟩
          rw [ht]
          rfl
        simp [List.filter_cons, this]
      rw [hstep, hfilter, ih st hnd2]
    · have hnone : (lookupStr st.items cls).isNone = true := by
        cases hlk : lookupStr st.items cls with
        | none => rfl
        | some t => exact absurd (by rw [hlk]; rfl : (lookupStr st.items cls).isSome = true) h
      have hstep : mintAllStep css st cls =
          St.mk (succ css st.counter).2 (succ css st.counter).1
            (st.items ++ [(cls, st.key)]) (st.count + 1) := by
        unfold mintAllStep
        rw [if_neg h]
      have hlk : ∀ c, c ∈ rest → lookupStr (mintAllStep css st cls).items c =
          lookupStr st.items c := by
        intro c hc
        rw [hstep]
        show lookupStr (st.items ++ [(cls, st.key)]) c = lookupStr st.items c
        apply lookupStr_append_singleton_ne
        intro hh
        rw [hh] at hmem
        exact hmem hc
      have hfilter2 : (rest.filter fun c => (lookupStr (mintAllStep css st cls).items c).isNone) =
          rest.filter fun c => (lookupStr st.items c).isNone := by
        apply List.filter_congr
        intro c hc
        rw [hlk c hc]
      have hfilter : ((cls :: rest).filter fun c => (lookupStr st.items c).isNone) =
          cls :: (rest.filter fun c => (lookupStr st.items c).isNone) := by
        simp [List.filter_cons, hnone]
      rw [ih (mintAllStep css st cls) hnd2, hfilter2, hfilter]
      rw [hstep]
      show st.count + 1 + _ = _
      simp [List.length_cons]
      omega

theorem replaceAllStep_inv (css : String) (classes : List String) (st : St) :
    st.counter ≤ (replaceAllStep css classes st).counter ∧
    Ext st.items (replaceAllStep css classes st).items ∧
    (KeyOk st → ItemsOk (replaceAllStep css classes st)) := by
  rcases foldl_mintAllStep_inv css classes st with ⟨h1, h2, h3⟩
  refine ⟨h1, h2, ?_⟩
  intro hk
  have hio := keyOk_itemsOk (h3 hk)
  exact ⟨hio.1, hio.2⟩

theorem replaceAllStep_count (css : String) (classes : List String) (st : St)
    (hnd : classes.Nodup) :
    (replaceAllStep css classes st).count =
      st.count + ((classes.filter fun c => (lookupStr st.items c).isNone).length) :=
  foldl_mintAllStep_count css classes st hnd

/-! ## Per-phase invariants: stylesheet regeneration -/

theorem bounded_mintCss (css : String) (st : St) (clazz : String) (h : ItemsBounded st) :
    ItemsBounded (St.mk (succ css st.counter).2 st.key
      (st.items ++ [(clazz, (succ css st.counter).1)]) st.count) := by
  rcases succ_spec css st.counter with ⟨cf, hge, _, heq, _⟩
  intro v hv
  have hvals : vals (st.items ++ [(clazz, (succ css st.counter).1)]) =
      vals st.items ++ [(succ css st.counter).1] := by
    rw [vals_append]; rfl
  rw [hvals] at hv
  show TokOk (succ css st.counter).2 v
  rw [heq] at hv ⊢
  rcases List.mem_append.mp hv with hm | hm
  · exact tokOk_mono (h _ hm) (by omega)
  · have : v = ts34 cf := by simpa using hm
    rw [this]
    exact Or.inr ⟨cf, by omega, rfl⟩

theorem mintCssStep_inv (css : String) (nf : Bool) (st : St) (clazz : String) :
    st.counter ≤ (mintCssStep css nf st clazz).counter ∧
    Ext st.items (mintCssStep css nf st clazz).items ∧
    (ItemsOk st → ItemsOk (mintCssStep css nf st clazz)) ∧
    (ItemsBounded st → ItemsBounded (mintCssStep css nf st clazz)) ∧
    (mintCssStep css nf st clazz).count = st.count ∧
    (mintCssStep css nf st clazz).key = st.key := by
  unfold mintCssStep
  by_cases h : ((lookupStr st.items clazz).isNone && nf) = true
  · rw [if_pos h]
    refine ⟨?_, ext_append _ _, ?_, ?_, rfl, rfl⟩
    · show st.counter ≤ (succ css st.counter).2
      have := succ_counter_le css st.counter
      omega
    · intro hio
      exact itemsOk_mintCss css st clazz hio
    · intro hb
      exact bounded_mintCss css st clazz hb
  · rw [if_neg h]
    exact ⟨le_refl _, ext_refl _, fun hio => hio, fun hb => hb, rfl, rfl⟩

theorem substSegs_inv (css : String) (nf : Bool) :
    ∀ (segs : List (Sum String String)) (st : St),
      st.counter ≤ (substSegs css nf segs st).2.counter ∧
      Ext st.items (substSegs css nf segs st).2.items ∧
      (ItemsOk st → ItemsOk (substSegs css nf segs st).2) ∧
      (ItemsBounded st → ItemsBounded (substSegs css nf segs st).2) ∧
      (substSegs css nf segs st).2.count = st.count := by
  intro segs
  induction segs with
  | nil => intro st; exact ⟨le_refl _, ext_refl _, fun h => h, fun h => h, rfl⟩
  | cons sg rest ih =>
    intro st
    cases sg with
    | inl t => exact ih st
    | inr m =>
      rcases mintCssStep_inv css nf st (m.drop 1) with ⟨h1, h2, h3, h4, h5, _⟩
      rcases ih (mintCssStep css nf st (m.drop 1)) with ⟨g1, g2, g3, g4, g5⟩
      refine ⟨le_trans h1 g1, ext_trans h2 g2, fun hio => g3 (h3 hio),
        fun hb => g4 (h4 hb), ?_⟩
      show (substSegs css nf rest (mintCssStep css nf st (m.drop 1))).2.count = st.count
      rw [g5, h5]

theorem rewriteSelectors_inv (css : String) (nf : Bool) :
    ∀ (sels : List String) (st : St),
      st.counter ≤ (rewriteSelectors css nf sels st).2.counter ∧
      Ext st.items (rewriteSelectors css nf sels st).2.items ∧
      (ItemsOk st → ItemsOk (rewriteSelectors css nf sels st).2) ∧
      (ItemsBounded st → ItemsBounded (rewriteSelectors css nf sels st).2) ∧
      (rewriteSelectors css nf sels st).2.count = st.count ∧
      (rewriteSelectors css nf sels st).1.length = sels.length := by
  intro sels
  induction sels with
  | nil => intro st; exact ⟨le_refl _, ext_refl _, fun h => h, fun h => h, rfl, rfl⟩
  | cons sel rest ih =>
    intro st
    rcases substSegs_inv css nf (cssScan sel) st with ⟨h1, h2, h3, h4, h5⟩
    rcases ih (substSelector css nf st sel).2 with ⟨g1, g2, g3, g4, g5, g6⟩
    refine ⟨le_trans h1 g1, ext_trans h2 g2, fun hio => g3 (h3 hio),
      fun hb => g4 (h4 hb), ?_, ?_⟩
    · show (rewriteSelectors css nf rest (substSelector css nf st sel).2).2.count = st.count
      rw [g5]
      exact h5
    · show (rewriteSelectors css nf rest (substSelector css nf st sel).2).1.length + 1 =
        rest.length + 1
      omega

theorem transformSelectors_st (css : String) (st : St) (sels : List String) :
    (transformSelectors css st sels).2 = (rewriteSelectors css (hasNot sels) sels st).2 := rfl

theorem transformSelectors_inv (css : String) (st : St) (sels : List String) :
    st.counter ≤ (transformSelectors css st sels).2.counter ∧
    Ext st.items (transformSelectors css st sels).2.items ∧
    (ItemsOk st → ItemsOk (transformSelectors css st sels).2) ∧
    (transformSelectors css st sels).2.count = st.count := by
  rw [transformSelectors_st]
  rcases rewriteSelectors_inv css (hasNot sels) sels st with ⟨h1, h2, h3, _, h5, _⟩
  exact ⟨h1, h2, h3, h5⟩

theorem transformMediaRules_inv (css : String) :
    ∀ (rules : List CRule) (st : St),
      st.counter ≤ (transformMediaRules css rules st).2.counter ∧
      Ext st.items (transformMediaRules css rules st).2.items ∧
      (ItemsOk st → ItemsOk (transformMediaRules css rules st).2) ∧
      (transformMediaRules css rules st).2.count = st.count := by
  intro rules
  induction rules with
  | nil => intro st; exact ⟨le_refl _, ext_refl _, fun h => h, rfl⟩
  | cons r rest ih =>
    intro st
    cases r with
    | rule sels =>
      rcases transformSelectors_inv css st sels with ⟨h1, h2, h3, h4⟩
      rcases ih (transformSelectors css st sels).2 with ⟨g1, g2, g3, g4⟩
      refine ⟨le_trans h1 g1, ext_trans h2 g2, fun hio => g3 (h3 hio), ?_⟩
      show (transformMediaRules css rest (transformSelectors css st sels).2).2.count = st.count
      rw [g4, h4]
    | media inner => exact ih st
    | other => exact ih st

theorem generateCssModel_inv (css : String) :
    ∀ (rules : List CRule) (st : St),
      st.counter ≤ (generateCssModel css rules st).2.counter ∧
      Ext st.items (generateCssModel css rules st).2.items ∧
      (ItemsOk st → ItemsOk (generateCssModel css rules st).2) ∧
      (generateCssModel css rules st).2.count = st.count := by
  intro rules
  induction rules with
  | nil => intro st; exact ⟨le_refl _, ext_refl _, fun h => h, rfl⟩
  | cons r rest ih =>
    intro st
    cases r with
    | rule sels =>
      rcases transformSelectors_inv css st sels with ⟨h1, h2, h3, h4⟩
      rcases ih (transformSelectors css st sels).2 with ⟨g1, g2, g3, g4⟩
      refine ⟨le_trans h1 g1, ext_trans h2 g2, fun hio => g3 (h3 hio), ?_⟩
      show (generateCssModel css rest (transformSelectors css st sels).2).2.count = st.count
      rw [g4, h4]
    | media inner =>
      rcases transformMediaRules_inv css inner st with ⟨h1, h2, h3, h4⟩
      rcases ih (transformMediaRules css inner st).2 with ⟨g1, g2, g3, g4⟩
      refine ⟨le_trans h1 g1, ext_trans h2 g2, fun hio => g3 (h3 hio), ?_⟩
      show (generateCssModel css rest (transformMediaRules css inner st).2).2.count = st.count
      rw [g4, h4]
    | other => exact ih st

/-! ## The table across a whole run -/

theorem keyOk_init : KeyOk initSt := by
  constructor
  · show (["_"] : List String).Nodup
    simp
  · intro v hv
    have : v = "_" := by simpa [initSt, vals] using hv
    rw [this]
    exact Or.inl rfl

theorem runPipeline_st (css : String) (rules : List CRule) (lits : List String) (ra : Bool) :
    (runPipeline css rules lits ra).st =
      (generateCssModel css rules
        (if ra then
          replaceAllStep css (catalogOf rules) (replacePhase (catalogOf rules) css lits initSt).2
        else (replacePhase (catalogOf rules) css lits initSt).2)).2 := by
  cases ra <;> rfl

theorem nodup_catalogOf (rules : List CRule) : (catalogOf rules).Nodup :=
  nodup_dedupFirstAux _ []

theorem runPipeline_itemsOk (css : String) (rules : List CRule) (lits : List String)
    (ra : Bool) : ItemsOk (runPipeline css rules lits ra).st := by
  rw [runPipeline_st]
  apply (generateCssModel_inv css rules _).2.2.1
  have hp : KeyOk (replacePhase (catalogOf rules) css lits initSt).2 :=
    (replacePhase_inv (catalogOf rules) css lits initSt).2.2.1 keyOk_init
  cases ra with
  | false =>
    simp only [if_neg, Bool.false_eq_true, if_false]
    exact keyOk_itemsOk hp
  | true =>
    simp only [if_pos]
    exact (replaceAllStep_inv css (catalogOf rules) _).2.2 hp

/-- C6: for every run, the substitution table is injective (no two
distinct class names share a token), and it only ever grows: every
binding present after any prefix of the script literals has been
processed is still present, unchanged, in the final table (tokens are
never reassigned). -/
theorem c6_table_injective (css : String) (rules : List CRule) (lits : List String)
    (ra : Bool) :
    (∀ c1 c2 t, lookupStr (runPipeline css rules lits ra).st.items c1 = some t →
      lookupStr (runPipeline css rules lits ra).st.items c2 = some t → c1 = c2) ∧
    (∀ n c t,
      lookupStr (replacePhase (catalogOf rules) css (lits.take n) initSt).2.items c = some t →
      lookupStr (runPipeline css rules lits ra).st.items c = some t) := by
  constructor
  · intro c1 c2 t h1 h2
    exact lookupStr_inj _ (runPipeline_itemsOk css rules lits ra).1 c1 c2 t h1 h2
  · intro n c t hlk
    have hsplit : (replacePhase (catalogOf rules) css lits initSt).2 =
        (replacePhase (catalogOf rules) css (lits.drop n)
          (replacePhase (catalogOf rules) css (lits.take n) initSt).2).2 := by
      have h := replacePhase_state_append (catalogOf rules) css (lits.take n) (lits.drop n) initSt
      rw [List.take_append_drop] at h
      exact h
    have hext1 : Ext (replacePhase (catalogOf rules) css (lits.take n) initSt).2.items
        (replacePhase (catalogOf rules) css lits initSt).2.items := by
      rw [hsplit]
      exact (replacePhase_inv (catalogOf rules) css (lits.drop n) _).2.1
    have hext2 : Ext (replacePhase (catalogOf rules) css lits initSt).2.items
        ((if ra then
          replaceAllStep css (catalogOf rules) (replacePhase (catalogOf rules) css lits initSt).2
        else (replacePhase (catalogOf rules) css lits initSt).2)).items := by
      cases ra with
      | false => exact ext_refl _
      | true => exact (replaceAllStep_inv css (catalogOf rules) _).2.1
    have hext3 := (generateCssModel_inv css rules
      ((if ra then
        replaceAllStep css (catalogOf rules) (replacePhase (catalogOf rules) css lits initSt).2
      else (replacePhase (catalogOf rules) css lits initSt).2))).2.1
    rw [runPipeline_st]
    exact hext3 c t (hext2 c t (hext1 c t hlk))

/-- C6 witness: in the `.a{color:red}.b{color:blue}` run, the binding
`a ↦ "_"` visible after the first literal is still the final binding. -/
theorem c6_table_injective_witness :
    lookupStr (replacePhase (catalogOf rulesC5) cssC5 (["a", "b"].take 1) initSt).2.items
      "a" = some "_" ∧
    lookupStr (runPipeline cssC5 rulesC5 ["a", "b"] false).st.items "a" = some "_" :=
  ⟨by decide,
    (c6_table_injective cssC5 rulesC5 ["a", "b"] false).2 1 "a" "_" (by decide)⟩

/-- C3 as amended: `getReplacementsCount()` equals the occurrence count
over the script literals, plus (under `replaceAll`) one per catalog
class left unmapped by the script phase; and `generateCss` never touches
the counter, so stylesheet-selector substitutions are not counted. -/
theorem c3_count (css : String) (rules : List CRule) (lits : List String) (ra : Bool) :
    ((runPipeline css rules lits ra).st.count =
      jsOccs (catalogOf rules) lits +
        (if ra then
          ((catalogOf rules).filter fun c =>
            (lookupStr (replacePhase (catalogOf rules) css lits initSt).2.items c).isNone).length
        else 0)) ∧
    (∀ (st : St) (rules2 : List CRule), (generateCssModel css rules2 st).2.count = st.count) := by
  constructor
  · have hr := (replacePhase_inv (catalogOf rules) css lits initSt).2.2.2
    have hinit : initSt.count = 0 := rfl
    rw [runPipeline_st]
    rw [(generateCssModel_inv css rules _).2.2.2]
    cases ra with
    | false =>
      simp only [Bool.false_eq_true, if_false]
      rw [hr, hinit]
      omega
    | true =>
      simp only [if_pos]
      rw [replaceAllStep_count css (catalogOf rules) _ (nodup_catalogOf rules), hr, hinit]
      omega
  · intro st rules2
    exact (generateCssModel_inv css rules2 st).2.2.2

/-! ## Selector keeping and dropping in `generateCss` -/

theorem filter_length_lt {p : String → Bool} :
    ∀ (l : List String) (a : String), a ∈ l → p a = false →
      (l.filter p).length < l.length := by
  intro l
  induction l with
  | nil => intro a h; simp at h
  | cons x xs ih =>
    intro a ha hpa
    have hle : (xs.filter p).length ≤ xs.length := List.length_filter_le _ _
    rcases List.mem_cons.mp ha with rfl | hmem
    · simp only [List.filter_cons, hpa, Bool.false_eq_true, if_false]
      simp only [List.length_cons]
      omega
    · by_cases hx : p x = true
      · simp only [List.filter_cons, hx, if_pos, List.length_cons]
        have := ih a hmem hpa
        omega
      · have hxf : p x = false := Bool.eq_false_iff.mpr hx
        simp only [List.filter_cons, hxf, Bool.false_eq_true, if_false, List.length_cons]
        have := ih a hmem hpa
        omega

theorem transformSelectors_drop (css : String) (st : St) (sels : List String)
    (hex : ∃ r ∈ (rewriteSelectors css (hasNot sels) sels st).1,
      containsStr r "undefined" = true) :
    (transformSelectors css st sels).1 = [] := by
  rcases hex with ⟨r, hr, hcont⟩
  have hlen := (rewriteSelectors_inv css (hasNot sels) sels st).2.2.2.2.2
  have hlt : ((rewriteSelectors css (hasNot sels) sels st).1.filter
      fun s => !(containsStr s "undefined")).length <
      (rewriteSelectors css (hasNot sels) sels st).1.length :=
    filter_length_lt _ r hr (by rw [hcont]; rfl)
  show (if ((rewriteSelectors css (hasNot sels) sels st).1.filter
      fun s => !(containsStr s "undefined")).length = sels.length then
      ((rewriteSelectors css (hasNot sels) sels st).1.filter
        fun s => !(containsStr s "undefined"))
    else []) = []
  rw [if_neg (by omega)]

theorem transformSelectors_keep (css : String) (st : St) (sels : List String)
    (hall : ∀ r ∈ (rewriteSelectors css (hasNot sels) sels st).1,
      containsStr r "undefined" = false) :
    (transformSelectors css st sels).1 = (rewriteSelectors css (hasNot sels) sels st).1 := by
  have hlen := (rewriteSelectors_inv css (hasNot sels) sels st).2.2.2.2.2
  have hfe : ((rewriteSelectors css (hasNot sels) sels st).1.filter
      fun s => !(containsStr s "undefined")) =
      (rewriteSelectors css (hasNot sels) sels st).1 :=
    List.filter_eq_self.mpr (fun a ha => by rw [hall a ha]; rfl)
  show (if ((rewriteSelectors css (hasNot sels) sels st).1.filter
      fun s => !(containsStr s "undefined")).length = sels.length then
      ((rewriteSelectors css (hasNot sels) sels st).1.filter
        fun s => !(containsStr s "undefined"))
    else []) = _
  rw [hfe, if_pos hlen]

/-- C1 as amended: whenever at least one rewritten selector of a rule
still contains `"undefined"` (an unresolved selector), `generateCss`
empties the rule's whole selector list — even if other selectors
resolved; the rewritten list is kept exactly when every selector
survives. In particular a rule whose only selector is unresolved is
removed entirely, but a rule with one resolved and one unresolved
selector out of two is removed as well rather than keeping the resolved
one. -/
theorem c1_rule_drop (css : String) (st : St) (sels : List String) :
    ((∃ r ∈ (rewriteSelectors css (hasNot sels) sels st).1,
      containsStr r "undefined" = true) → (transformSelectors css st sels).1 = []) ∧
    ((∀ r ∈ (rewriteSelectors css (hasNot sels) sels st).1,
      containsStr r "undefined" = false) →
      (transformSelectors css st sels).1 = (rewriteSelectors css (hasNot sels) sels st).1) :=
  ⟨transformSelectors_drop css st sels, transformSelectors_keep css st sels⟩

/-- C1 witness: a rule whose only selector references an unmapped class
rewrites to `.undefined` and is dropped, emptying the selector list. -/
theorem c1_rule_drop_witness :
    (∃ r ∈ (rewriteSelectors "" (hasNot [".x"]) [".x"] initSt).1,
      containsStr r "undefined" = true) ∧
    (transformSelectors "" initSt [".x"]).1 = [] :=
  ⟨by decide, (c1_rule_drop "" initSt [".x"]).1 (by decide)⟩

/-! ## Minting coverage and freshness for `:not` rules -/

theorem mintCssStep_cases (css : String) (nf : Bool) (st : St) (clazz : String) :
    (((lookupStr st.items clazz).isNone && nf) = true ∧
      (mintCssStep css nf st clazz).items =
        st.items ++ [(clazz, (succ css st.counter).1)]) ∨
    (((lookupStr st.items clazz).isNone && nf) = false ∧
      mintCssStep css nf st clazz = st) := by
  unfold mintCssStep
  by_cases hcond : ((lookupStr st.items clazz).isNone && nf) = true
  · rw [if_pos hcond]
    exact Or.inl ⟨hcond, rfl⟩
  · rw [if_neg hcond]
    exact Or.inr ⟨Bool.eq_false_iff.mpr hcond, rfl⟩

theorem substSegs_covers (css : String) :
    ∀ (segs : List (Sum String String)) (st : St) (c : String),
      c ∈ (segMatches segs).map (fun m => m.drop 1) →
      ∃ t, lookupStr (substSegs css true segs st).2.items c = some t := by
  intro segs
  induction segs with
  | nil => intro st c h; simp [segMatches] at h
  | cons sg rest ih =>
    intro st c h
    cases sg with
    | inl t0 => exact ih st c (by simpa [segMatches] using h)
    | inr m =>
      have hh : c = m.drop 1 ∨ c ∈ (segMatches rest).map (fun m2 => m2.drop 1) := by
        have hsm : segMatches (Sum.inr m :: rest) = m :: segMatches rest := rfl
        rw [hsm] at h
        simpa using h
      rcases hh with rfl | htail
      · have hsome :
            (lookupStr (mintCssStep css true st (m.drop 1)).items (m.drop 1)).isSome = true := by
          rcases mintCssStep_cases css true st (m.drop 1) with ⟨hcond, hcase⟩ | ⟨hcond, hcase⟩
          · rw [hcase]
            have hlknone : lookupStr st.items (m.drop 1) = none :=
              Option.isNone_iff_eq_none.mp (Bool.and_eq_true _ _ |>.mp hcond).1
            rw [lookupStr_append_singleton_self _ _ _ hlknone]
            rfl
          · rw [hcase]
            cases hlk : lookupStr st.items (m.drop 1) with
            | none =>
              rw [hlk] at hcond
              exact absurd hcond (by simp)
            | some t => rfl
        rcases Option.isSome_iff_exists.mp hsome with ⟨t, ht⟩
        have hext := (substSegs_inv css true rest (mintCssStep css true st (m.drop 1))).2.1
        exact ⟨t, hext _ _ ht⟩
      · exact ih (mintCssStep css true st (m.drop 1)) c htail

theorem substSegs_new_fresh (css : String) (nf : Bool) :
    ∀ (segs : List (Sum String String)) (st : St) (c t : String),
      lookupStr st.items c = none →
      lookupStr (substSegs css nf segs st).2.items c = some t →
      ∃ n, st.counter ≤ n ∧ t = ts34 n := by
  intro segs
  induction segs with
  | nil =>
    intro st c t h1 h2
    have h2' : lookupStr st.items c = some t := h2
    rw [h1] at h2'
    exact absurd h2' (by simp)
  | cons sg rest ih =>
    intro st c t h1 h2
    cases sg with
    | inl t0 => exact ih st c t h1 h2
    | inr m =>
      cases hlk1 : lookupStr (mintCssStep css nf st (m.drop 1)).items c with
      | none =>
        rcases ih (mintCssStep css nf st (m.drop 1)) c t hlk1 h2 with ⟨n, hn, ht⟩
        exact ⟨n, le_trans (mintCssStep_inv css nf st (m.drop 1)).1 hn, ht⟩
      | some t1 =>
        have hext := (substSegs_inv css nf rest (mintCssStep css nf st (m.drop 1))).2.1
        have h2' := hext c t1 hlk1
        have htt : t = t1 := Option.some.inj (h2.symm.trans h2')
        rcases mintCssStep_cases css nf st (m.drop 1) with ⟨_, hcase⟩ | ⟨_, hcase⟩
        · by_cases hcm : m.drop 1 = c
          · have hlknone : lookupStr st.items (m.drop 1) = none := by rw [hcm]; exact h1
            have hself := lookupStr_append_singleton_self st.items (m.drop 1)
              ((succ css st.counter).1) hlknone
            rw [hcase, hcm] at hlk1
            rw [hcm] at hself
            have ht1 : t1 = (succ css st.counter).1 :=
              Option.some.inj (hlk1.symm.trans hself)
            rcases succ_spec css st.counter with ⟨cf, hge, _, heq, _⟩
            refine ⟨cf, hge, ?_⟩
            rw [htt, ht1, heq]
          · have hne := lookupStr_append_singleton_ne st.items (m.drop 1)
              ((succ css st.counter).1) c hcm
            rw [hcase, hne, h1] at hlk1
            exact absurd hlk1 (by simp)
        · rw [hcase, h1] at hlk1
          exact absurd hlk1 (by simp)

theorem rewriteSelectors_covers (css : String) :
    ∀ (sels : List String) (st : St) (c : String), c ∈ matchedClasses sels →
      ∃ t, lookupStr (rewriteSelectors css true sels st).2.items c = some t := by
  intro sels
  induction sels with
  | nil => intro st c h; simp [matchedClasses] at h
  | cons sel rest ih =>
    intro st c h
    have hm : matchedClasses (sel :: rest) =
        (cssMatches sel).map (fun m => m.drop 1) ++ matchedClasses rest := by
      unfold matchedClasses
      simp
    rw [hm] at h
    rcases List.mem_append.mp h with h1 | h1
    · rcases substSegs_covers css (cssScan sel) st c h1 with ⟨t, ht⟩
      have hext := (rewriteSelectors_inv css true rest (substSelector css true st sel).2).2.1
      exact ⟨t, hext _ _ ht⟩
    · exact ih (substSelector css true st sel).2 c h1

theorem rewriteSelectors_new_fresh (css : String) (nf : Bool) :
    ∀ (sels : List String) (st : St) (c t : String),
      lookupStr st.items c = none →
      lookupStr (rewriteSelectors css nf sels st).2.items c = some t →
      ∃ n, st.counter ≤ n ∧ t = ts34 n := by
  intro sels
  induction sels with
  | nil =>
    intro st c t h1 h2
    have h2' : lookupStr st.items c = some t := h2
    rw [h1] at h2'
    exact absurd h2' (by simp)
  | cons sel rest ih =>
    intro st c t h1 h2
    cases hlk1 : lookupStr (substSelector css nf st sel).2.items c with
    | none =>
      rcases ih (substSelector css nf st sel).2 c t hlk1 h2 with ⟨n, hn, ht⟩
      exact ⟨n, le_trans (substSegs_inv css nf (cssScan sel) st).1 hn, ht⟩
    | some t1 =>
      have hext := (rewriteSelectors_inv css nf rest (substSelector css nf st sel).2).2.1
      have h2' := hext c t1 hlk1
      have htt : t = t1 := Option.some.inj (h2.symm.trans h2')
      rcases substSegs_new_fresh css nf (cssScan sel) st c t1 h1 hlk1 with ⟨n, hn, ht⟩
      exact ⟨n, hn, by rw [htt, ht]⟩

/-- C4 as amended: for a rule whose joined selector list contains
`:not`, every class name matched anywhere in its selectors — in
particular a negated class absent from the table — ends up with a table
entry after the rule is processed, and a class that was absent gets a
token fresh with respect to the incoming table; the rewritten selectors
are kept (none dropped) provided no rewritten selector of the rule
contains the text `"undefined"`. -/
theorem c4_not_minting (css : String) (st : St) (sels : List String) (c : String)
    (hnot : hasNot sels = true) (hc : c ∈ matchedClasses sels) (hb : ItemsBounded st) :
    (∃ t, lookupStr (transformSelectors css st sels).2.items c = some t ∧
      (lookupStr st.items c = none → t ∉ vals st.items)) ∧
    ((∀ r ∈ (rewriteSelectors css (hasNot sels) sels st).1,
      containsStr r "undefined" = false) →
      (transformSelectors css st sels).1 = (rewriteSelectors css (hasNot sels) sels st).1) := by
  constructor
  · rw [transformSelectors_st css st sels, hnot]
    rcases rewriteSelectors_covers css sels st c hc with ⟨t, ht⟩
    refine ⟨t, ht, ?_⟩
    intro hnone
    rcases rewriteSelectors_new_fresh css true sels st c t hnone ht with ⟨n, hn, htn⟩
    intro hmem
    exact tokOk_ne_fresh (hb _ hmem) hn htn
  · exact transformSelectors_keep css st sels

/-- C4 witness: processing the single-selector rule `:not(.x)` from the
empty table mints a token for the negated class `x`. -/
theorem c4_not_minting_witness :
    hasNot [":not(.x)"] = true ∧ "x" ∈ matchedClasses [":not(.x)"] ∧
    (∃ t, lookupStr (transformSelectors "" initSt [":not(.x)"]).2.items "x" = some t ∧
      (lookupStr initSt.items "x" = none → t ∉ vals initSt.items)) :=
  ⟨by decide, by decide,
    (c4_not_minting "" initSt [":not(.x)"] "x" (by decide) (by decide)
      (by intro v hv; simp [vals, initSt] at hv)).1⟩

end Gsub
